import Mathlib

set_option maxHeartbeats 1000000

/-!
Shallow embedding of `sofa_deriver.py` (the SOFA → derived-library source
rewriting pipeline).  Text is modelled as `List Char`; a file is a
`List (List Char)` of newline-terminated lines (the Python code's
`ln.decode()` from bytes is modelled as identity, since every claim is about
the decoded text).  All functions are structurally recursive, so the kernel
can evaluate them on concrete inputs.
-/

/-- Python's `str.isspace` character class used by `str.strip()`. -/
def pyIsSpace (c : Char) : Bool :=
  c == ' ' || c == '\t' || c == '\n' || c == '\r' || c == '\x0b' || c == '\x0c'

/-- Python `str.lower()` (ASCII, as used on this ASCII source text). -/
def pyLower (s : List Char) : List Char := s.map Char.toLower

/-- Python `str.upper()` (ASCII). -/
def pyUpper (s : List Char) : List Char := s.map Char.toUpper

/-- Python `str.strip()`: drop leading and trailing whitespace. -/
def pyStrip (s : List Char) : List Char :=
  ((s.dropWhile pyIsSpace).reverse.dropWhile pyIsSpace).reverse

/-- Python `str.startswith(pat)`. -/
def pyStartsWith (s pat : List Char) : Bool := pat.isPrefixOf s

/-- Python `pat in s` (substring containment). -/
def containsSub (s pat : List Char) : Bool :=
  match s with
  | [] => pat.isEmpty
  | _ :: cs => pat.isPrefixOf s || containsSub cs pat

/-- Python `str.endswith(pat)`. -/
def pyEndsWith (s pat : List Char) : Bool := pat.isSuffixOf s

/-- Does a (nonempty) plain occurrence of `pat` start right here? -/
def replHit (pat s : List Char) : Bool := !pat.isEmpty && pat.isPrefixOf s

/-- Worker for Python `str.replace(pat, rep)` (all non-overlapping leftmost
occurrences).  The `Nat` argument is a skip counter for the characters of a
match that were already consumed, which keeps the recursion structural. -/
def replAux (pat rep : List Char) : List Char → Nat → List Char
  | [], _ => []
  | _ :: cs, Nat.succ k => replAux pat rep cs k
  | c :: cs, 0 =>
    if replHit pat (c :: cs) then
      rep ++ replAux pat rep cs (pat.length - 1)
    else
      c :: replAux pat rep cs 0

/-- Python `s.replace(pat, rep)`. -/
def replaceAll (pat rep s : List Char) : List Char := replAux pat rep s 0

/-- Regex `\w` as it applies to this ASCII source text. -/
def isWordChar (c : Char) : Bool := c.isAlphanum || c == '_'

/-- Word-character test across a string edge (`none` = beyond the text). -/
def optIsWord : Option Char → Bool
  | none => false
  | some c => isWordChar c

/-- Does the regex `\b pat \b` match right here?  `prev` is the character
just before this position in the original text; the two `optIsWord`
disequalities are the left and right word-boundary tests of `\b`. -/
def wwHit (pat : List Char) (prev : Option Char) (s : List Char) : Bool :=
  !pat.isEmpty && pat.isPrefixOf s
    && (optIsWord prev != optIsWord pat.head?)
    && (optIsWord pat.getLast? != optIsWord (s.drop pat.length).head?)

/-- Worker for Python `re.sub` with pattern `\b NAME \b` (`sofa_deriver.py`
line 186: `re.compile(r'\b%s\b' % macro)`).  The `Option Char` argument is
the character just before the current position of the original text (used
for the left word-boundary test), and the `Nat` argument is the skip counter
for consumed match characters. -/
def wwAux (pat rep : List Char) : List Char → Option Char → Nat → List Char
  | [], _, _ => []
  | c :: cs, _, Nat.succ k => wwAux pat rep cs (some c) k
  | c :: cs, prev, 0 =>
    if wwHit pat prev (c :: cs) then
      rep ++ wwAux pat rep cs (some c) (pat.length - 1)
    else
      c :: wwAux pat rep cs (some c) 0

/-- The last character of `u`, or `prev` when `u` is empty: the character
preceding the position right after `u`. -/
def lastOr (u : List Char) (prev : Option Char) : Option Char :=
  match u with
  | [] => prev
  | _ :: _ => u.getLast?

/-- `re.sub(r'\b pat \b', rep, s)` over a whole text. -/
def wwSub (pat rep s : List Char) : List Char := wwAux pat rep s none 0

-- Fixed tokens of the rewriters, taken verbatim from `sofa_deriver.py`.

def iauTok : List Char := "iau".toList

def spacedIau : List Char := "i a u".toList

def sofaLow : List Char := "sofa".toList

def sofaUp : List Char := "SOFA".toList

def spacedSofa : List Char := "s o f a".toList

def starstar : List Char := "**".toList

def starNL : List Char := "**\n".toList

def hashTok : List Char := "#".toList

def closeComment : List Char := "*/".toList

def closeBraceNL : List Char := "\x7d\n".toList

def newlineLn : List Char := "\n".toList

def dashedRule : List Char :=
  "/*----------------------------------------------------------------------".toList

def sentinelH : List Char :=
  "**  This file is part of the International Astronomical Union".toList

def disclaimerC : List Char :=
  "**  This function is part of the International Astronomical Union".toList

def statusTok : List Char := "**  Status:".toList

def revisionTok : List Char := "**  This revision:".toList

def releaseTok : List Char := "**  SOFA release".toList

def testSuffixTok : List Char := "t_sofa_c.c".toList

def hSuffixTok : List Char := ".h".toList

def cSuffixTok : List Char := ".c".toList

/-- `ACCEPTSOFASTRS` (`sofa_deriver.py` line 357). -/
def acceptStrs : List (List Char) :=
  [("Derived, with permission, from the SOFA library").toList]

/-- The literal replacement prefix in `prefix_macro` (`sofa_deriver.py`
line 183: `'ERFA_%s' % macro.upper()`); note it is hard-coded, not derived
from the configured library name. -/
def erfaUnd : List Char := "ERFA_".toList

/-- `prefix_macro`'s replacement text for a matched macro name `m`. -/
def erfaRep (m : List Char) : List Char := erfaUnd ++ pyUpper m

/-- The macro-prefixing pass over one assembled text (`sofa_deriver.py`
lines 186 and 197–198: one compiled `\b m \b` substitution per macro,
applied in registry order). -/
def applyMacroSubs (ms : List (List Char)) (s : List Char) : List Char :=
  ms.foldl (fun t m => wwSub m (erfaRep m) t) s

/-- The claim C1 / spec wording of the macro replacement: the upper-cased
library name, an underscore, and the macro name upper-cased.  Used only to
compare the code's behaviour against the claim. -/
def specMacroRename (lib m : List Char) : List Char := pyUpper lib ++ ('_' :: pyUpper m)

/-- Flush one maximal word-character run of the specification-side
whole-word substitution: a run equal to the macro name is replaced, any
other run is kept. -/
def flushRun (m rep buf : List Char) : List Char := if buf == m then rep else buf

/-- Specification-side whole-word substitution: split the text into maximal
word-character runs, replace exactly the runs equal to `m` by `rep`, leave
everything else (including runs that merely contain `m`) unchanged.  `buf`
accumulates the current run. -/
def specAux (m rep : List Char) : List Char → List Char → List Char
  | buf, [] => flushRun m rep buf
  | buf, c :: cs =>
    if isWordChar c then specAux m rep (buf ++ [c]) cs
    else flushRun m rep buf ++ c :: specAux m rep [] cs

/-- Specification-side whole-word substitution over a whole text. -/
def substSpecWW (m rep s : List Char) : List Char := specAux m rep [] s

-- ## Header rewriter (`reprocess_sofa_h_lines`, lines 210–239)

structure HState where
  donewheader : Bool
  done : Bool
  acc : List (List Char)
deriving DecidableEq

def initH : HState := ⟨false, false, []⟩

/-- Directive-line rewrite (`sofa_deriver.py` lines 218–219):
`ln.replace('SOFA', libname.upper()).replace('sofa', libname.lower())`. -/
def hLineDirective (lib ln : List Char) : List Char :=
  replaceAll sofaLow (pyLower lib) (replaceAll sofaUp (pyUpper lib) ln)

/-- `' '.join(libname.lower())` (line 228). -/
def spacedLower (lib : List Char) : List Char := List.intersperse ' ' (pyLower lib)

/-- `' '.join(s)` for a name used as-is. -/
def spacedName (s : List Char) : List Char := List.intersperse ' ' s

/-- One line of `reprocess_sofa_h_lines`.  `done` models the `break` on the
dashed-rule line. -/
def stepH (funcPfx lib lic : List Char) (st : HState) (ln : List Char) : HState :=
  if st.done then st
  else if pyStartsWith ln hashTok then
    { st with acc := st.acc ++ [hLineDirective lib ln] }
  else if pyStartsWith ln starstar then
    if st.donewheader then st
    else if pyStartsWith ln sentinelH then
      { st with donewheader := true, acc := st.acc ++ [lic] }
    else if containsSub ln spacedSofa then
      { st with acc := st.acc ++ [replaceAll spacedSofa (spacedLower lib) ln] }
    else
      { st with acc := st.acc ++ [replaceAll sofaUp (pyUpper lib) ln] }
  else if pyStartsWith ln dashedRule then
    { st with done := true, acc := st.acc ++ [newlineLn] }
  else
    { st with acc := st.acc ++ [replaceAll iauTok funcPfx ln] }

def runHState (funcPfx lib lic : List Char) (lns : List (List Char)) : HState :=
  lns.foldl (stepH funcPfx lib lic) initH

/-- `reprocess_sofa_h_lines`: the emitted lines. -/
def runH (funcPfx lib lic : List Char) (lns : List (List Char)) : List (List Char) :=
  (runHState funcPfx lib lic lns).acc

-- ## Implementation rewriter (`reprocess_sofa_c_lines`, lines 242–304)

/-- State of `reprocess_sofa_c_lines`.  `done` models the `break` on the
dashed-rule line; `crashed` models the `IndexError` that `outlns[-1]` would
raise on an empty output list; `fires` is ghost instrumentation counting how
often the header-ending branch (line 255) ran. -/
structure CImpState where
  inhdr : Bool
  insofapart : Bool
  replacedPfx : Bool
  replacedSpacedPfx : Bool
  incopyright : Bool
  done : Bool
  crashed : Bool
  fires : Nat
  acc : List (List Char)
deriving DecidableEq

def initC : CImpState :=
  { inhdr := true, insofapart := false, replacedPfx := false,
    replacedSpacedPfx := false, incopyright := false, done := false,
    crashed := false, fires := 0, acc := [] }

/-- Header-line rewrite while `inhdr` (line 262):
`ln.replace('sofa', libname.lower()).replace('SOFA', libname.upper())`. -/
def cHdrRewrite (lib ln : List Char) : List Char :=
  replaceAll sofaUp (pyUpper lib) (replaceAll sofaLow (pyLower lib) ln)

/-- Body-line rewrite (lines 300–302):
`ln.replace('iau', func_prefix).replace('sofa', libname).replace('SOFA', libname.upper())`. -/
def cBodyRewrite (funcPfx lib ln : List Char) : List Char :=
  replaceAll sofaUp (pyUpper lib) (replaceAll sofaLow lib (replaceAll iauTok funcPfx ln))

/-- One line of `reprocess_sofa_c_lines`, following the `elif` chain of the
source in order. -/
def stepC (funcPfx lib lic : List Char) (st : CImpState) (ln : List Char) : CImpState :=
  if st.done || st.crashed then st
  else if st.inhdr then
    if !st.replacedPfx && containsSub ln iauTok then
      { st with acc := st.acc ++ [replaceAll iauTok funcPfx ln],
                replacedPfx := true, inhdr := false, fires := st.fires + 1 }
    else
      { st with acc := st.acc ++ [cHdrRewrite lib ln] }
  else if st.insofapart then
    if pyStrip ln == starstar then { st with insofapart := false } else st
  else if pyStartsWith ln disclaimerC then
    { st with insofapart := true }
  else if pyStartsWith ln statusTok then
    match st.acc.getLast? with
    | none => { st with crashed := true }
    | some l => if pyStrip l == starstar then { st with acc := st.acc.dropLast } else st
  else if !st.replacedSpacedPfx && containsSub ln spacedIau then
    { st with acc := st.acc ++ [replaceAll spacedIau (spacedName funcPfx) ln],
              replacedSpacedPfx := true }
  else if st.incopyright then
    if pyStartsWith ln closeComment then
      { st with incopyright := false, acc := st.acc ++ [ln] }
    else st
  else if pyStartsWith ln dashedRule then
    { st with acc := st.acc ++ [closeBraceNL], done := true }
  else if pyStartsWith ln revisionTok then
    { st with incopyright := true,
              acc := st.acc ++ (ln :: (if lic.isEmpty then [] else [starNL, lic])) }
  else
    { st with acc := st.acc ++ [cBodyRewrite funcPfx lib ln] }

def runCState (funcPfx lib lic : List Char) (lns : List (List Char)) : CImpState :=
  lns.foldl (stepC funcPfx lib lic) initC

/-- `reprocess_sofa_c_lines`: the emitted lines. -/
def runCout (funcPfx lib lic : List Char) (lns : List (List Char)) : List (List Char) :=
  (runCState funcPfx lib lic lns).acc

-- ## Test rewriter (`reprocess_sofa_test_lines`, lines 307–340)

structure TState where
  inhdr : Bool
  insofapart : Bool
  done : Bool
  acc : List (List Char)
deriving DecidableEq

def initT : TState := ⟨true, false, false, []⟩

/-- Common tail rewrite of the test rewriter (lines 334–336). -/
def tTailRewrite (funcPfx lib ln : List Char) : List Char :=
  replaceAll sofaUp (pyUpper lib) (replaceAll sofaLow (pyLower lib) (replaceAll iauTok funcPfx ln))

/-- One line of `reprocess_sofa_test_lines`. -/
def stepT (funcPfx lib : List Char) (st : TState) (ln : List Char) : TState :=
  if st.done then st
  else if st.inhdr then
    if st.insofapart || pyStartsWith ln releaseTok then
      if pyStartsWith ln closeComment then
        { st with inhdr := false, insofapart := false, acc := st.acc ++ [ln] }
      else { st with insofapart := true }
    else
      { st with acc :=
          st.acc ++ [tTailRewrite funcPfx lib (replaceAll spacedSofa (spacedName lib) ln)] }
  else if pyStartsWith ln dashedRule then
    { st with done := true }
  else
    { st with acc := st.acc ++ [tTailRewrite funcPfx lib ln] }

/-- `reprocess_sofa_test_lines`: the emitted lines. -/
def runT (funcPfx lib : List Char) (lns : List (List Char)) : List (List Char) :=
  (lns.foldl (stepT funcPfx lib) initT).acc

-- ## Content auditor (`check_for_sofa`, lines 360–371)

/-- Does `check_for_sofa` warn about this line?  (`'sofa' in ln.lower()` and
no allow-listed string occurs in the line.) -/
def sofaWarnLine (ln : List Char) : Bool :=
  containsSub (pyLower ln) sofaLow && !(acceptStrs.any fun s => containsSub ln s)

/-- `enumerate`-style scan of `check_for_sofa`, collecting (index, line) for
each warned line. -/
def cfsAux (i : Nat) : List (List Char) → List (Nat × List Char)
  | [] => []
  | ln :: rest => (if sofaWarnLine ln then [(i, ln)] else []) ++ cfsAux (i + 1) rest

/-- `check_for_sofa` on a list of lines: the reported warnings, as
(line index, line text) pairs. -/
def checkForSofa (lns : List (List Char)) : List (Nat × List Char) := cfsAux 0 lns

-- ## Per-file output assembly (`reprocess_sofa_tarfile`, lines 188–204)

/-- `''.join(lines)`. -/
def joinAll (lns : List (List Char)) : List Char := lns.flatten

/-- The per-file tail of `reprocess_sofa_tarfile`'s write loop: audit the
rewritten lines (when verbose), join them, run every macro substitution over
the joined text, and append the already-rendered end-license text.  Returns
(warnings, written file text). -/
def emitFile (verbose : Bool) (macros : List (List Char)) (lns : List (List Char))
    (endlic : List Char) : List (Nat × List Char) × List Char :=
  (if verbose then checkForSofa lns else [],
   applyMacroSubs macros (joinAll lns) ++ endlic)

-- ## File naming and routing (`reprocess_sofa_tarfile`, lines 138–165)

/-- `ti.name.split('/')[-1]`. -/
def baseName (nm : List Char) : List Char := (nm.splitOn '/').getLastD []

/-- Line 163: `ti.name.split('/')[-1].replace('sofa', libname.lower())`. -/
def outputName (lib nm : List Char) : List Char :=
  replaceAll sofaLow (pyLower lib) (baseName nm)

/-- Classify one archive entry and run the matching rewriter (lines
141–159); `none` models "ignore everything else". -/
def routeEntry (funcPfx lib lic : List Char) (e : List Char × List (List Char)) :
    Option (List Char × List (List Char)) :=
  if pyEndsWith e.1 testSuffixTok then some (outputName lib e.1, runT funcPfx lib e.2)
  else if pyEndsWith e.1 hSuffixTok then some (outputName lib e.1, runH funcPfx lib lic e.2)
  else if pyEndsWith e.1 cSuffixTok then some (outputName lib e.1, runCout funcPfx lib lic e.2)
  else none

/-- Python-dict assignment `filecontents[filename] = contents`: replace in
place if the key exists (keeping its position), else append. -/
def upsert {α : Type} (k : List Char) (v : α) : List (List Char × α) → List (List Char × α)
  | [] => [(k, v)]
  | p :: t => if p.1 = k then (k, v) :: t else p :: upsert k v t

/-- Python-dict lookup. -/
def alookup {α : Type} (k : List Char) : List (List Char × α) → Option α
  | [] => none
  | p :: t => if p.1 = k then some p.2 else alookup k t

/-- The `filecontents` dict after the extraction loop (lines 138–165):
entries processed in archive order, each accepted entry stored under its
derived output name. -/
def buildFileContents (funcPfx lib lic : List Char)
    (entries : List (List Char × List (List Char))) : List (List Char × List (List Char)) :=
  entries.foldl
    (fun m e =>
      match routeEntry funcPfx lib lic e with
      | none => m
      | some kv => upsert kv.1 kv.2 m)
    []

/-- The write loop (lines 188–204) over the final `filecontents` dict: one
written text per stored file. -/
def writeAll (macros : List (List Char)) (endlic : List Char)
    (m : List (List Char × List (List Char))) : List (List Char × List Char) :=
  m.map fun p => (p.1, (emitFile true macros p.2 endlic).2)

-- ## Specification-side definitions used only to state corrected claims

/-- Modelled from the spec (claim C5's wording): case-insensitive
replacement of `pat` (given lower-case) by `rep`.  Skip-counter form like
`replAux`. -/
def ciReplAux (pat rep : List Char) : List Char → Nat → List Char
  | [], _ => []
  | _ :: cs, Nat.succ k => ciReplAux pat rep cs k
  | c :: cs, 0 =>
    if !pat.isEmpty && pyLower ((c :: cs).take pat.length) == pat then
      rep ++ ciReplAux pat rep cs (pat.length - 1)
    else c :: ciReplAux pat rep cs 0

/-- Modelled from the spec (claim C5's wording): case-insensitive
`replace`. -/
def ciReplaceAll (pat rep s : List Char) : List Char := ciReplAux pat rep s 0

/-- Claim C5's output name: case-insensitive replacement of the project
token in the basename with the configured library name. -/
def specOutNameCI (lib nm : List Char) : List Char := ciReplaceAll sofaLow lib (baseName nm)

/-- Claim C7's description of a documentation-comment line rewrite: only the
upper-case project token replaced by the upper-cased library name. -/
def hdrDocRewriteSpec (lib ln : List Char) : List Char := replaceAll sofaUp (pyUpper lib) ln

/-- The header rewriter specialised to inputs without the attribution
sentinel: a stateless truncating per-line map (claim C7's amended form). -/
def hdrNoSent (funcPfx lib : List Char) : List (List Char) → List (List Char)
  | [] => []
  | ln :: rest =>
    if pyStartsWith ln hashTok then hLineDirective lib ln :: hdrNoSent funcPfx lib rest
    else if pyStartsWith ln starstar then
      (if containsSub ln spacedSofa then replaceAll spacedSofa (spacedLower lib) ln
       else replaceAll sofaUp (pyUpper lib) ln) :: hdrNoSent funcPfx lib rest
    else if pyStartsWith ln dashedRule then [newlineLn]
    else replaceAll iauTok funcPfx ln :: hdrNoSent funcPfx lib rest

-- ## Lemmas about the string primitives

theorem replAux_skip (pat rep : List Char) :
    ∀ (u s : List Char), replAux pat rep (u ++ s) u.length = replAux pat rep s 0 := by
  intro u
  induction u with
  | nil => intro s; rfl
  | cons c u ih => intro s; exact ih s

theorem replaceAll_fire (pat rep t : List Char) (h : pat ≠ []) :
    replaceAll pat rep (pat ++ t) = rep ++ replaceAll pat rep t := by
  cases pat with
  | nil => exact absurd rfl h
  | cons p pt =>
    have hhit : replHit (p :: pt) (p :: (pt ++ t)) = true := by
      have hpre : (p :: pt) <+: (p :: (pt ++ t)) := by
        rw [← List.cons_append]
        exact List.prefix_append _ _
      simp [replHit, List.isPrefixOf_iff_prefix, hpre]
    show replAux (p :: pt) rep (p :: (pt ++ t)) 0 = rep ++ replAux (p :: pt) rep t 0
    rw [replAux, if_pos hhit]
    have hl : (p :: pt).length - 1 = pt.length := rfl
    rw [hl, replAux_skip]

theorem replaceAll_miss (pat rep : List Char) (c : Char) (cs : List Char)
    (h : replHit pat (c :: cs) = false) :
    replaceAll pat rep (c :: cs) = c :: replaceAll pat rep cs := by
  show replAux pat rep (c :: cs) 0 = _
  rw [replAux, if_neg]
  · rfl
  · simp [h]

theorem containsSub_infix_iff (s pat : List Char) : containsSub s pat = true ↔ pat <:+: s := by
  induction s with
  | nil => simp [containsSub, List.isEmpty_iff, List.infix_nil]
  | cons c cs ih =>
    rw [containsSub]
    simp [List.infix_cons_iff, List.isPrefixOf_iff_prefix, ih]

theorem replaceAll_no_occ (pat rep : List Char) :
    ∀ s : List Char, ¬ pat <:+: s → replaceAll pat rep s = s := by
  intro s
  induction s with
  | nil => intro _; rfl
  | cons c cs ih =>
    intro h
    have h1 : ¬ pat <+: (c :: cs) := fun hp => h hp.isInfix
    have h2 : ¬ pat <:+: cs := fun hi => h (List.infix_cons hi)
    have hp' : pat.isPrefixOf (c :: cs) = false := by
      cases hb : pat.isPrefixOf (c :: cs)
      · rfl
      · exact absurd (List.isPrefixOf_iff_prefix.1 hb) h1
    have hhit : replHit pat (c :: cs) = false := by
      simp [replHit, hp']
    rw [replaceAll_miss _ _ _ _ hhit, ih h2]

theorem rep_infix_replaceAll (pat rep : List Char) (hne : pat ≠ []) :
    ∀ s : List Char, pat <:+: s → rep <:+: replaceAll pat rep s := by
  intro s
  induction s with
  | nil => intro h; rw [List.infix_nil] at h; exact absurd h hne
  | cons c cs ih =>
    intro h
    by_cases hp : pat <+: (c :: cs)
    · obtain ⟨t, ht⟩ := hp
      rw [← ht, replaceAll_fire _ _ _ hne]
      exact (List.prefix_append rep _).isInfix
    · have h2 : pat <:+: cs := ((List.infix_cons_iff).1 h).resolve_left hp
      have hp' : pat.isPrefixOf (c :: cs) = false := by
        cases hb : pat.isPrefixOf (c :: cs)
        · rfl
        · exact absurd (List.isPrefixOf_iff_prefix.1 hb) hp
      have hhit : replHit pat (c :: cs) = false := by
        simp [replHit, hp']
      rw [replaceAll_miss _ _ _ _ hhit]
      exact List.infix_cons (ih h2)

theorem mem_dropWhile_of_mem {p : Char → Bool} {c : Char} :
    ∀ {l : List Char}, p c = false → c ∈ l → c ∈ l.dropWhile p := by
  intro l
  induction l with
  | nil => intro _ h; cases h
  | cons a t ih =>
    intro hc h
    by_cases ha : p a = true
    · rw [List.dropWhile_cons_of_pos ha]
      rcases List.mem_cons.1 h with rfl | h2
      · rw [ha] at hc; cases hc
      · exact ih hc h2
    · rw [List.dropWhile_cons_of_neg ha]
      exact h

theorem mem_pyStrip {c : Char} {l : List Char} (hc : pyIsSpace c = false) (h : c ∈ l) :
    c ∈ pyStrip l := by
  unfold pyStrip
  apply List.mem_reverse.2
  apply mem_dropWhile_of_mem hc
  apply List.mem_reverse.2
  exact mem_dropWhile_of_mem hc h

theorem pyStrip_ne_starstar {l : List Char} {c : Char} (hmem : c ∈ l)
    (h1 : pyIsSpace c = false) (h2 : c ≠ '*') : pyStrip l ≠ starstar := by
  intro he
  have hmem2 := mem_pyStrip h1 hmem
  rw [he] at hmem2
  have hss : starstar = ['*', '*'] := by decide
  rw [hss] at hmem2
  rcases List.mem_cons.1 hmem2 with h3 | h3
  · exact h2 h3
  · rcases List.mem_cons.1 h3 with h4 | h4
    · exact h2 h4
    · cases h4

-- ## C2: the trailing license block is outside both global passes

/-- C2 — frame effect of the write loop: the audited warnings come from the
rewritten lines only, the written text is the macro-substituted join of the
rewritten lines with the end-license text appended verbatim afterwards (so
the license block is a literal suffix of every written file), and the
warnings do not depend on the license text at all. -/
theorem c2_license_frame (v : Bool) (macros : List (List Char))
    (lns : List (List Char)) (endlic : List Char) :
    (emitFile v macros lns endlic).2 = applyMacroSubs macros (joinAll lns) ++ endlic
    ∧ (emitFile v macros lns endlic).1 = (if v then checkForSofa lns else [])
    ∧ endlic <:+ (emitFile v macros lns endlic).2
    ∧ (emitFile v macros lns endlic).1 = (emitFile v macros lns []).1 := by
  refine ⟨rfl, rfl, ⟨applyMacroSubs macros (joinAll lns), rfl⟩, rfl⟩

-- ## C8: the audit reports exactly the non-exempt matching lines

theorem mem_cfsAux (i : Nat) (ln : List Char) :
    ∀ (lns : List (List Char)) (i0 : Nat),
      (i, ln) ∈ cfsAux i0 lns
        ↔ ∃ j, i = i0 + j ∧ lns.get? j = some ln ∧ sofaWarnLine ln = true := by
  intro lns
  induction lns with
  | nil =>
    intro i0
    simp [cfsAux]
  | cons l rest ih =>
    intro i0
    rw [cfsAux]
    constructor
    · intro hm
      rcases List.mem_append.1 hm with hm1 | hm2
      · by_cases hw : sofaWarnLine l = true
        · rw [if_pos hw] at hm1
          rcases List.mem_cons.1 hm1 with he | he
          · refine ⟨0, ?_, ?_, ?_⟩
            · have : i = i0 := congrArg Prod.fst he
              omega
            · have h2 : ln = l := congrArg Prod.snd he
              simp [h2]
            · have h2 : ln = l := congrArg Prod.snd he
              rw [h2]; exact hw
          · cases he
        · rw [if_neg hw] at hm1
          cases hm1
      · obtain ⟨j, hj1, hj2, hj3⟩ := (ih (i0 + 1)).1 hm2
        exact ⟨j + 1, by omega, by simpa using hj2, hj3⟩
    · rintro ⟨j, hj1, hj2, hj3⟩
      cases j with
      | zero =>
        have hl : l = ln := by simpa using hj2
        apply List.mem_append.2
        left
        rw [hl, hj3]
        simp [hj1]
      | succ j' =>
        apply List.mem_append.2
        right
        apply (ih (i0 + 1)).2
        exact ⟨j', by omega, by simpa using hj2, hj3⟩

/-- C8 — the Content Auditor warns about line `i` iff that line contains the
original project name case-insensitively and contains no allow-listed
string; the audit is a pure scan and the written text is the same whether or
not the audit runs (`verbose`). -/
theorem c8_audit_iff (lns : List (List Char)) (i : Nat) (ln : List Char)
    (macros : List (List Char)) (endlic : List Char) :
    ((i, ln) ∈ checkForSofa lns
      ↔ lns.get? i = some ln ∧ containsSub (pyLower ln) sofaLow = true
          ∧ ∀ s ∈ acceptStrs, containsSub ln s = false)
    ∧ (emitFile true macros lns endlic).2 = (emitFile false macros lns endlic).2 := by
  constructor
  · rw [checkForSofa, mem_cfsAux]
    constructor
    · rintro ⟨j, hj1, hj2, hj3⟩
      have hij : i = j := by omega
      subst hij
      simp only [sofaWarnLine, Bool.and_eq_true, Bool.not_eq_true'] at hj3
      refine ⟨hj2, hj3.1, ?_⟩
      intro s hs
      have := List.any_eq_false.1 hj3.2 s hs
      cases hx : containsSub ln s
      · rfl
      · exact absurd hx this
    · rintro ⟨h1, h2, h3⟩
      refine ⟨i, by omega, h1, ?_⟩
      unfold sofaWarnLine
      rw [h2]
      have hany : (acceptStrs.any fun s => containsSub ln s) = false :=
        List.any_eq_false.2 fun s hs => by rw [h3 s hs]; exact Bool.false_ne_true
      rw [hany]
      rfl
  · rfl

-- ## Branch equations for `stepC` (one per branch of the elif chain)

theorem stepC_stuck {funcPfx lib lic : List Char} {st : CImpState} {ln : List Char}
    (h : (st.done || st.crashed) = true) : stepC funcPfx lib lic st ln = st := by
  simp [stepC, h]

theorem stepC_fire {funcPfx lib lic : List Char} {st : CImpState} {ln : List Char}
    (h1 : (st.done || st.crashed) = false) (h2 : st.inhdr = true)
    (h3 : (!st.replacedPfx && containsSub ln iauTok) = true) :
    stepC funcPfx lib lic st ln
      = { st with acc := st.acc ++ [replaceAll iauTok funcPfx ln],
                  replacedPfx := true, inhdr := false, fires := st.fires + 1 } := by
  simp [stepC, h1, h2, h3]

theorem stepC_hdrelse {funcPfx lib lic : List Char} {st : CImpState} {ln : List Char}
    (h1 : (st.done || st.crashed) = false) (h2 : st.inhdr = true)
    (h3 : (!st.replacedPfx && containsSub ln iauTok) = false) :
    stepC funcPfx lib lic st ln = { st with acc := st.acc ++ [cHdrRewrite lib ln] } := by
  simp [stepC, h1, h2, h3]

theorem stepC_insofa_end {funcPfx lib lic : List Char} {st : CImpState} {ln : List Char}
    (h1 : (st.done || st.crashed) = false) (h2 : st.inhdr = false)
    (h4 : st.insofapart = true) (h : (pyStrip ln == starstar) = true) :
    stepC funcPfx lib lic st ln = { st with insofapart := false } := by
  simp [stepC, h1, h2, h4, h]

theorem stepC_insofa_skip {funcPfx lib lic : List Char} {st : CImpState} {ln : List Char}
    (h1 : (st.done || st.crashed) = false) (h2 : st.inhdr = false)
    (h4 : st.insofapart = true) (h : (pyStrip ln == starstar) = false) :
    stepC funcPfx lib lic st ln = st := by
  simp [stepC, h1, h2, h4, h]

theorem stepC_disclaimer {funcPfx lib lic : List Char} {st : CImpState} {ln : List Char}
    (h1 : (st.done || st.crashed) = false) (h2 : st.inhdr = false)
    (h4 : st.insofapart = false) (h5 : pyStartsWith ln disclaimerC = true) :
    stepC funcPfx lib lic st ln = { st with insofapart := true } := by
  simp [stepC, h1, h2, h4, h5]

theorem stepC_status_crash {funcPfx lib lic : List Char} {st : CImpState} {ln : List Char}
    (h1 : (st.done || st.crashed) = false) (h2 : st.inhdr = false)
    (h4 : st.insofapart = false) (h5 : pyStartsWith ln disclaimerC = false)
    (h6 : pyStartsWith ln statusTok = true) (hgl : st.acc.getLast? = none) :
    stepC funcPfx lib lic st ln = { st with crashed := true } := by
  simp [stepC, h1, h2, h4, h5, h6, hgl]

theorem stepC_status_del {funcPfx lib lic : List Char} {st : CImpState} {ln l : List Char}
    (h1 : (st.done || st.crashed) = false) (h2 : st.inhdr = false)
    (h4 : st.insofapart = false) (h5 : pyStartsWith ln disclaimerC = false)
    (h6 : pyStartsWith ln statusTok = true) (hgl : st.acc.getLast? = some l)
    (hl : (pyStrip l == starstar) = true) :
    stepC funcPfx lib lic st ln = { st with acc := st.acc.dropLast } := by
  simp [stepC, h1, h2, h4, h5, h6, hgl, hl]

theorem stepC_status_keep {funcPfx lib lic : List Char} {st : CImpState} {ln l : List Char}
    (h1 : (st.done || st.crashed) = false) (h2 : st.inhdr = false)
    (h4 : st.insofapart = false) (h5 : pyStartsWith ln disclaimerC = false)
    (h6 : pyStartsWith ln statusTok = true) (hgl : st.acc.getLast? = some l)
    (hl : (pyStrip l == starstar) = false) :
    stepC funcPfx lib lic st ln = st := by
  simp [stepC, h1, h2, h4, h5, h6, hgl, hl]

theorem stepC_spaced {funcPfx lib lic : List Char} {st : CImpState} {ln : List Char}
    (h1 : (st.done || st.crashed) = false) (h2 : st.inhdr = false)
    (h4 : st.insofapart = false) (h5 : pyStartsWith ln disclaimerC = false)
    (h6 : pyStartsWith ln statusTok = false)
    (h7 : (!st.replacedSpacedPfx && containsSub ln spacedIau) = true) :
    stepC funcPfx lib lic st ln
      = { st with acc := st.acc ++ [replaceAll spacedIau (spacedName funcPfx) ln],
                  replacedSpacedPfx := true } := by
  simp [stepC, h1, h2, h4, h5, h6, h7]

theorem stepC_copy_end {funcPfx lib lic : List Char} {st : CImpState} {ln : List Char}
    (h1 : (st.done || st.crashed) = false) (h2 : st.inhdr = false)
    (h4 : st.insofapart = false) (h5 : pyStartsWith ln disclaimerC = false)
    (h6 : pyStartsWith ln statusTok = false)
    (h7 : (!st.replacedSpacedPfx && containsSub ln spacedIau) = false)
    (h8 : st.incopyright = true) (h9 : pyStartsWith ln closeComment = true) :
    stepC funcPfx lib lic st ln = { st with incopyright := false, acc := st.acc ++ [ln] } := by
  simp [stepC, h1, h2, h4, h5, h6, h7, h8, h9]

theorem stepC_copy_skip {funcPfx lib lic : List Char} {st : CImpState} {ln : List Char}
    (h1 : (st.done || st.crashed) = false) (h2 : st.inhdr = false)
    (h4 : st.insofapart = false) (h5 : pyStartsWith ln disclaimerC = false)
    (h6 : pyStartsWith ln statusTok = false)
    (h7 : (!st.replacedSpacedPfx && containsSub ln spacedIau) = false)
    (h8 : st.incopyright = true) (h9 : pyStartsWith ln closeComment = false) :
    stepC funcPfx lib lic st ln = st := by
  simp [stepC, h1, h2, h4, h5, h6, h7, h8, h9]

theorem stepC_dashed {funcPfx lib lic : List Char} {st : CImpState} {ln : List Char}
    (h1 : (st.done || st.crashed) = false) (h2 : st.inhdr = false)
    (h4 : st.insofapart = false) (h5 : pyStartsWith ln disclaimerC = false)
    (h6 : pyStartsWith ln statusTok = false)
    (h7 : (!st.replacedSpacedPfx && containsSub ln spacedIau) = false)
    (h8 : st.incopyright = false) (h10 : pyStartsWith ln dashedRule = true) :
    stepC funcPfx lib lic st ln = { st with acc := st.acc ++ [closeBraceNL], done := true } := by
  simp [stepC, h1, h2, h4, h5, h6, h7, h8, h10]

theorem stepC_revision {funcPfx lib lic : List Char} {st : CImpState} {ln : List Char}
    (h1 : (st.done || st.crashed) = false) (h2 : st.inhdr = false)
    (h4 : st.insofapart = false) (h5 : pyStartsWith ln disclaimerC = false)
    (h6 : pyStartsWith ln statusTok = false)
    (h7 : (!st.replacedSpacedPfx && containsSub ln spacedIau) = false)
    (h8 : st.incopyright = false) (h10 : pyStartsWith ln dashedRule = false)
    (h11 : pyStartsWith ln revisionTok = true) :
    stepC funcPfx lib lic st ln
      = { st with incopyright := true,
                  acc := st.acc ++ (ln :: (if lic.isEmpty then [] else [starNL, lic])) } := by
  simp [stepC, h1, h2, h4, h5, h6, h7, h8, h10, h11]

theorem stepC_body {funcPfx lib lic : List Char} {st : CImpState} {ln : List Char}
    (h1 : (st.done || st.crashed) = false) (h2 : st.inhdr = false)
    (h4 : st.insofapart = false) (h5 : pyStartsWith ln disclaimerC = false)
    (h6 : pyStartsWith ln statusTok = false)
    (h7 : (!st.replacedSpacedPfx && containsSub ln spacedIau) = false)
    (h8 : st.incopyright = false) (h10 : pyStartsWith ln dashedRule = false)
    (h11 : pyStartsWith ln revisionTok = false) :
    stepC funcPfx lib lic st ln = { st with acc := st.acc ++ [cBodyRewrite funcPfx lib ln] } := by
  simp [stepC, h1, h2, h4, h5, h6, h7, h8, h10, h11]

-- ## C3: the dashed-rule branch truncates the Implementation artifact

theorem foldl_stepC_done {funcPfx lib lic : List Char} {st : CImpState}
    (h : st.done = true) :
    ∀ lns : List (List Char), List.foldl (stepC funcPfx lib lic) st lns = st := by
  intro lns
  induction lns with
  | nil => rfl
  | cons ln rest ih =>
    rw [List.foldl_cons, stepC_stuck (by simp [h])]
    exact ih

/-- C3 — once the dashed-rule end-of-file branch of the Implementation
Rewriter fires (its conditions taken verbatim from the elif chain), the
output is exactly the output up to and including that line, whose last line
is the single closing brace, and no later input line changes anything. -/
theorem c3_truncation (funcPfx lib lic : List Char) (pre post : List (List Char))
    (ln : List Char)
    (h1 : ((runCState funcPfx lib lic pre).done
            || (runCState funcPfx lib lic pre).crashed) = false)
    (h2 : (runCState funcPfx lib lic pre).inhdr = false)
    (h4 : (runCState funcPfx lib lic pre).insofapart = false)
    (h5 : pyStartsWith ln disclaimerC = false)
    (h6 : pyStartsWith ln statusTok = false)
    (h7 : (!(runCState funcPfx lib lic pre).replacedSpacedPfx
            && containsSub ln spacedIau) = false)
    (h8 : (runCState funcPfx lib lic pre).incopyright = false)
    (h10 : pyStartsWith ln dashedRule = true) :
    runCout funcPfx lib lic (pre ++ ln :: post) = runCout funcPfx lib lic (pre ++ [ln])
      ∧ (runCout funcPfx lib lic (pre ++ [ln])).getLast? = some closeBraceNL := by
  have hstep := @stepC_dashed funcPfx lib lic (runCState funcPfx lib lic pre) ln
    h1 h2 h4 h5 h6 h7 h8 h10
  have e1 : runCState funcPfx lib lic (pre ++ ln :: post)
      = List.foldl (stepC funcPfx lib lic)
          (stepC funcPfx lib lic (runCState funcPfx lib lic pre) ln) post := by
    rw [runCState, runCState, List.foldl_append, List.foldl_cons]
  have e2 : runCState funcPfx lib lic (pre ++ [ln])
      = stepC funcPfx lib lic (runCState funcPfx lib lic pre) ln := by
    rw [runCState, runCState, List.foldl_append, List.foldl_cons, List.foldl_nil]
  constructor
  · rw [runCout, runCout, e1, e2, hstep, foldl_stepC_done rfl]
  · rw [runCout, e2, hstep]
    exact List.getLast?_concat _

-- ## C4: the header-ending guard fires exactly on the first `iau` line

theorem stepC_preserve_body {funcPfx lib lic : List Char} {st : CImpState} {ln : List Char}
    (hh : st.inhdr = false) :
    (stepC funcPfx lib lic st ln).inhdr = false
      ∧ (stepC funcPfx lib lic st ln).fires = st.fires := by
  cases hstuck : (st.done || st.crashed) with
  | true => rw [stepC_stuck hstuck]; exact ⟨hh, rfl⟩
  | false =>
  cases hsofa : st.insofapart with
  | true =>
    cases hstr : (pyStrip ln == starstar) with
    | true => rw [stepC_insofa_end hstuck hh hsofa hstr]; exact ⟨hh, rfl⟩
    | false => rw [stepC_insofa_skip hstuck hh hsofa hstr]; exact ⟨hh, rfl⟩
  | false =>
  cases hdis : pyStartsWith ln disclaimerC with
  | true => rw [stepC_disclaimer hstuck hh hsofa hdis]; exact ⟨hh, rfl⟩
  | false =>
  cases hsta : pyStartsWith ln statusTok with
  | true =>
    cases hgl : st.acc.getLast? with
    | none => rw [stepC_status_crash hstuck hh hsofa hdis hsta hgl]; exact ⟨hh, rfl⟩
    | some l =>
      cases hgs : (pyStrip l == starstar) with
      | true => rw [stepC_status_del hstuck hh hsofa hdis hsta hgl hgs]; exact ⟨hh, rfl⟩
      | false => rw [stepC_status_keep hstuck hh hsofa hdis hsta hgl hgs]; exact ⟨hh, rfl⟩
  | false =>
  cases hsp : (!st.replacedSpacedPfx && containsSub ln spacedIau) with
  | true => rw [stepC_spaced hstuck hh hsofa hdis hsta hsp]; exact ⟨hh, rfl⟩
  | false =>
  cases hcp : st.incopyright with
  | true =>
    cases hcc : pyStartsWith ln closeComment with
    | true => rw [stepC_copy_end hstuck hh hsofa hdis hsta hsp hcp hcc]; exact ⟨hh, rfl⟩
    | false => rw [stepC_copy_skip hstuck hh hsofa hdis hsta hsp hcp hcc]; exact ⟨hh, rfl⟩
  | false =>
  cases hda : pyStartsWith ln dashedRule with
  | true => rw [stepC_dashed hstuck hh hsofa hdis hsta hsp hcp hda]; exact ⟨hh, rfl⟩
  | false =>
  cases hrv : pyStartsWith ln revisionTok with
  | true => rw [stepC_revision hstuck hh hsofa hdis hsta hsp hcp hda hrv]; exact ⟨hh, rfl⟩
  | false => rw [stepC_body hstuck hh hsofa hdis hsta hsp hcp hda hrv]; exact ⟨hh, rfl⟩

theorem foldl_stepC_fires_body {funcPfx lib lic : List Char} :
    ∀ (lns : List (List Char)) (st : CImpState), st.inhdr = false →
      (List.foldl (stepC funcPfx lib lic) st lns).fires = st.fires
        ∧ (List.foldl (stepC funcPfx lib lic) st lns).inhdr = false := by
  intro lns
  induction lns with
  | nil => intro st h; exact ⟨rfl, h⟩
  | cons ln rest ih =>
    intro st h
    rw [List.foldl_cons]
    obtain ⟨hf, hi⟩ := @stepC_preserve_body funcPfx lib lic st ln h
    obtain ⟨hf2, hi2⟩ := ih _ hf
    exact ⟨hf2.trans hi, hi2⟩

theorem foldl_stepC_fires_hdr {funcPfx lib lic : List Char} :
    ∀ (lns : List (List Char)) (st : CImpState),
      st.inhdr = true → st.replacedPfx = false → st.done = false → st.crashed = false →
      (List.foldl (stepC funcPfx lib lic) st lns).fires
        = st.fires + (if lns.any (fun l => containsSub l iauTok) then 1 else 0) := by
  intro lns
  induction lns with
  | nil => intro st _ _ _ _; simp
  | cons ln rest ih =>
    intro st hh hr hd hc
    cases hct : containsSub ln iauTok with
    | true =>
      rw [List.foldl_cons, stepC_fire (by simp [hd, hc]) hh (by simp [hr, hct])]
      rw [(foldl_stepC_fires_body rest _ rfl).1]
      simp [List.any_cons, hct]
    | false =>
      rw [List.foldl_cons, stepC_hdrelse (by simp [hd, hc]) hh (by simp [hct])]
      have hrec := ih { st with acc := st.acc ++ [cHdrRewrite lib ln] }
        (by exact hh) (by exact hr) (by exact hd) (by exact hc)
      rw [hrec]
      simp [List.any_cons, hct]

/-- C4 — the one-shot header-ending substitution of the Implementation
Rewriter runs exactly once when some input line contains the lower-case
function-prefix token, and never twice: the ghost counter `fires` of the
header-ending branch ends at 1 when such a line exists and at 0 otherwise,
for every input whatsoever; in particular a second occurrence of the token
later in the body can only be handled by the body-wide else branch. -/
theorem c4_guard_fires_once (funcPfx lib lic : List Char) (lns : List (List Char)) :
    (runCState funcPfx lib lic lns).fires
      = if lns.any (fun l => containsSub l iauTok) then 1 else 0 := by
  have h := @foldl_stepC_fires_hdr funcPfx lib lic lns initC rfl rfl rfl rfl
  simpa [runCState, initC] using h

-- ## C9: the `Status:` retraction never touches an empty output list

theorem stepC_inv {funcPfx lib lic : List Char} {st : CImpState} {ln : List Char}
    (hfp : ∃ c ∈ funcPfx, pyIsSpace c = false ∧ c ≠ '*')
    (hcr : st.crashed = false)
    (hacc : st.inhdr = false → ∃ l ∈ st.acc, pyStrip l ≠ starstar) :
    (stepC funcPfx lib lic st ln).crashed = false
      ∧ ((stepC funcPfx lib lic st ln).inhdr = false →
          ∃ l ∈ (stepC funcPfx lib lic st ln).acc, pyStrip l ≠ starstar) := by
  cases hdone : st.done with
  | true => rw [stepC_stuck (by simp [hdone])]; exact ⟨hcr, hacc⟩
  | false =>
  cases hinh : st.inhdr with
  | true =>
    cases hfire : (!st.replacedPfx && containsSub ln iauTok) with
    | true =>
      rw [stepC_fire (by simp [hdone, hcr]) hinh hfire]
      refine ⟨hcr, fun _ => ?_⟩
      refine ⟨replaceAll iauTok funcPfx ln, List.mem_append.2 (Or.inr ?_), ?_⟩
      · exact List.mem_singleton.2 rfl
      · obtain ⟨ch, hch, hw1, hw2⟩ := hfp
        have hcont : containsSub ln iauTok = true := by
          simp only [Bool.and_eq_true] at hfire
          exact hfire.2
        have hinf : iauTok <:+: ln := (containsSub_infix_iff ln iauTok).1 hcont
        have hrep : funcPfx <:+: replaceAll iauTok funcPfx ln :=
          rep_infix_replaceAll _ _ (by decide) _ hinf
        exact pyStrip_ne_starstar (hrep.subset hch) hw1 hw2
    | false =>
      rw [stepC_hdrelse (by simp [hdone, hcr]) hinh hfire]
      refine ⟨hcr, fun hcontra => ?_⟩
      have : st.inhdr = false := hcontra
      rw [hinh] at this
      cases this
  | false =>
  have hne : ∃ l ∈ st.acc, pyStrip l ≠ starstar := hacc hinh
  cases hsofa : st.insofapart with
  | true =>
    cases hstr : (pyStrip ln == starstar) with
    | true => rw [stepC_insofa_end (by simp [hdone, hcr]) hinh hsofa hstr]; exact ⟨hcr, fun _ => hne⟩
    | false => rw [stepC_insofa_skip (by simp [hdone, hcr]) hinh hsofa hstr]; exact ⟨hcr, fun _ => hne⟩
  | false =>
  cases hdis : pyStartsWith ln disclaimerC with
  | true => rw [stepC_disclaimer (by simp [hdone, hcr]) hinh hsofa hdis]; exact ⟨hcr, fun _ => hne⟩
  | false =>
  cases hsta : pyStartsWith ln statusTok with
  | true =>
    obtain ⟨l0, hl0mem, hl0⟩ := hne
    have haccne : st.acc ≠ [] := by
      intro h
      rw [h] at hl0mem
      cases hl0mem
    have hg : st.acc.getLast? = some (st.acc.getLast haccne) :=
      List.getLast?_eq_getLast _ haccne
    cases hgs : (pyStrip (st.acc.getLast haccne) == starstar) with
    | true =>
      rw [stepC_status_del (by simp [hdone, hcr]) hinh hsofa hdis hsta hg hgs]
      refine ⟨hcr, fun _ => ⟨l0, ?_, hl0⟩⟩
      have hgeq : pyStrip (st.acc.getLast haccne) = starstar := by simpa using hgs
      have hlg : l0 ≠ st.acc.getLast haccne := by
        intro he
        rw [he] at hl0
        exact hl0 hgeq
      have hsplit := List.dropLast_append_getLast haccne
      have hmem2 : l0 ∈ st.acc.dropLast ++ [st.acc.getLast haccne] := by
        rw [hsplit]; exact hl0mem
      rcases List.mem_append.1 hmem2 with h | h
      · exact h
      · exact absurd (List.mem_singleton.1 h) hlg
    | false =>
      rw [stepC_status_keep (by simp [hdone, hcr]) hinh hsofa hdis hsta hg hgs]
      exact ⟨hcr, fun _ => ⟨l0, hl0mem, hl0⟩⟩
  | false =>
  cases hsp : (!st.replacedSpacedPfx && containsSub ln spacedIau) with
  | true =>
    rw [stepC_spaced (by simp [hdone, hcr]) hinh hsofa hdis hsta hsp]
    obtain ⟨l0, hm, hq⟩ := hne
    exact ⟨hcr, fun _ => ⟨l0, List.mem_append.2 (Or.inl hm), hq⟩⟩
  | false =>
  cases hcp : st.incopyright with
  | true =>
    cases hcc : pyStartsWith ln closeComment with
    | true =>
      rw [stepC_copy_end (by simp [hdone, hcr]) hinh hsofa hdis hsta hsp hcp hcc]
      obtain ⟨l0, hm, hq⟩ := hne
      exact ⟨hcr, fun _ => ⟨l0, List.mem_append.2 (Or.inl hm), hq⟩⟩
    | false =>
      rw [stepC_copy_skip (by simp [hdone, hcr]) hinh hsofa hdis hsta hsp hcp hcc]
      exact ⟨hcr, fun _ => hne⟩
  | false =>
  cases hda : pyStartsWith ln dashedRule with
  | true =>
    rw [stepC_dashed (by simp [hdone, hcr]) hinh hsofa hdis hsta hsp hcp hda]
    obtain ⟨l0, hm, hq⟩ := hne
    exact ⟨hcr, fun _ => ⟨l0, List.mem_append.2 (Or.inl hm), hq⟩⟩
  | false =>
  cases hrv : pyStartsWith ln revisionTok with
  | true =>
    rw [stepC_revision (by simp [hdone, hcr]) hinh hsofa hdis hsta hsp hcp hda hrv]
    obtain ⟨l0, hm, hq⟩ := hne
    exact ⟨hcr, fun _ => ⟨l0, List.mem_append.2 (Or.inl hm), hq⟩⟩
  | false =>
    rw [stepC_body (by simp [hdone, hcr]) hinh hsofa hdis hsta hsp hcp hda hrv]
    obtain ⟨l0, hm, hq⟩ := hne
    exact ⟨hcr, fun _ => ⟨l0, List.mem_append.2 (Or.inl hm), hq⟩⟩

theorem foldl_stepC_inv {funcPfx lib lic : List Char}
    (hfp : ∃ c ∈ funcPfx, pyIsSpace c = false ∧ c ≠ '*') :
    ∀ (lns : List (List Char)) (st : CImpState), st.crashed = false →
      (st.inhdr = false → ∃ l ∈ st.acc, pyStrip l ≠ starstar) →
      (List.foldl (stepC funcPfx lib lic) st lns).crashed = false := by
  intro lns
  induction lns with
  | nil => intro st h _; exact h
  | cons ln rest ih =>
    intro st h1 h2
    rw [List.foldl_cons]
    obtain ⟨h1', h2'⟩ := @stepC_inv funcPfx lib lic st ln hfp h1 h2
    exact ih _ h1' h2'

/-- C9 — the `'**  Status:'` retraction step is always in bounds: under the
configured function prefix (any prefix containing a character that is
neither whitespace nor `'*'`, as `'era'` does), no run of the
Implementation Rewriter ever evaluates `outlns[-1]` on an empty output
list, because leaving the header state always appends the function-definition
line first and no sequence of retractions can remove it (it contains the
function prefix, so it never strips to a bare `'**'`). -/
theorem c9_status_safe (funcPfx lib lic : List Char)
    (hfp : ∃ c ∈ funcPfx, pyIsSpace c = false ∧ c ≠ '*')
    (lns : List (List Char)) :
    (runCState funcPfx lib lic lns).crashed = false := by
  apply foldl_stepC_inv hfp lns initC rfl
  intro h
  simp [initC] at h

/-- Witness for C9 at the program's actual configuration (`era`), on an
input that exercises the `Status:` branch including a retraction. -/
theorem c9_status_safe_witness :
    (runCState ("era").toList ("erfa").toList ("**  LIC\n").toList
      [("double iauAb(double x)\n").toList,
       ("**\n").toList,
       ("**  Status:  canonical.\n").toList,
       ("**  Status:  support function.\n").toList]).crashed = false :=
  c9_status_safe _ _ _ ⟨'e', by decide, by decide, by decide⟩ _

/-- Witness for C3: a concrete Implementation artifact whose second line is
the dashed-rule line; the trailing `junk` line does not affect the output,
whose last line is the closing brace. -/
theorem c3_truncation_witness :
    runCout ("era").toList ("erfa").toList ("**  LIC\n").toList
        ([("double iauAb(double x)\n").toList]
          ++ ("/*----------------------------------------------------------------------\n").toList :: [("junk\n").toList])
      = runCout ("era").toList ("erfa").toList ("**  LIC\n").toList
          ([("double iauAb(double x)\n").toList] ++ [("/*----------------------------------------------------------------------\n").toList])
    ∧ (runCout ("era").toList ("erfa").toList ("**  LIC\n").toList
        ([("double iauAb(double x)\n").toList] ++ [("/*----------------------------------------------------------------------\n").toList])).getLast?
        = some closeBraceNL :=
  c3_truncation _ _ _ _ _ _ (by decide) (by decide) (by decide) (by decide)
    (by decide) (by decide) (by decide) (by decide)

-- ## C6: what the "This revision:" branch actually emits

/-- C6 (amended) — when the `'**  This revision:'` sentinel line is
processed outside all drop states, the Implementation Rewriter emits the
line itself, then a bare `'**'` comment-continuation line, then the rendered
inline license block (the latter two only when the rendered block is
nonempty), and enters the copyright-block state.  The claim as stated (the
block immediately after the line) is refuted by `c6_revision_counterexample`. -/
theorem c6_revision_amended (funcPfx lib lic : List Char) (st : CImpState) (ln : List Char)
    (h1 : (st.done || st.crashed) = false) (h2 : st.inhdr = false)
    (h4 : st.insofapart = false) (h5 : pyStartsWith ln disclaimerC = false)
    (h6 : pyStartsWith ln statusTok = false)
    (h7 : (!st.replacedSpacedPfx && containsSub ln spacedIau) = false)
    (h8 : st.incopyright = false) (h10 : pyStartsWith ln dashedRule = false)
    (h11 : pyStartsWith ln revisionTok = true) :
    stepC funcPfx lib lic st ln
      = { st with incopyright := true,
                  acc := st.acc ++ (ln :: (if lic.isEmpty then [] else [starNL, lic])) } :=
  stepC_revision h1 h2 h4 h5 h6 h7 h8 h10 h11

/-- Witness for C6 (amended) at a concrete state and line. -/
theorem c6_revision_witness :
    stepC ("era").toList ("erfa").toList ("**  LIC\n").toList
        (⟨false, false, true, false, false, false, false, 1,
          [("double eraAb(double x)\n").toList]⟩ : CImpState)
        (("**  This revision:  2021 May 5\n").toList)
      = { (⟨false, false, true, false, false, false, false, 1,
            [("double eraAb(double x)\n").toList]⟩ : CImpState) with
          incopyright := true,
          acc := [("double eraAb(double x)\n").toList]
            ++ (("**  This revision:  2021 May 5\n").toList
                :: (if ("**  LIC\n").toList.isEmpty then []
                    else [starNL, ("**  LIC\n").toList])) } :=
  c6_revision_amended _ _ _ _ _ (by decide) (by decide) (by decide) (by decide)
    (by decide) (by decide) (by decide) (by decide) (by decide)

/-- Counterexample to C6 as stated: the rendered inline license block is
not emitted immediately after the `This revision:` line — a bare `'**'`
line stands between them. -/
theorem c6_revision_counterexample :
    runCout ("era").toList ("erfa").toList ("**  LIC\n").toList
        [("double iauAb(double x)\n").toList, ("**  This revision:  2021 May 5\n").toList]
      = [("double eraAb(double x)\n").toList, ("**  This revision:  2021 May 5\n").toList,
         starNL, ("**  LIC\n").toList]
    ∧ runCout ("era").toList ("erfa").toList ("**  LIC\n").toList
        [("double iauAb(double x)\n").toList, ("**  This revision:  2021 May 5\n").toList]
      ≠ [("double eraAb(double x)\n").toList, ("**  This revision:  2021 May 5\n").toList,
         ("**  LIC\n").toList] := by
  constructor
  · decide
  · decide

-- ## C5: the derived output file name

/-- Counterexample to C5 as stated: the code's replacement is
case-sensitive (`'SOFA.h'` passes through unchanged) and substitutes the
lower-cased library name (library `'Erfa'` yields `'erfa.h'`), while the
claim's case-insensitive replacement with the configured name would give
`'erfa.h'` and `'Erfa.h'` respectively. -/
theorem c5_outputname_counterexample :
    outputName ("erfa").toList ("src/SOFA.h").toList = ("SOFA.h").toList
    ∧ specOutNameCI ("erfa").toList ("src/SOFA.h").toList = ("erfa.h").toList
    ∧ outputName ("erfa").toList ("src/SOFA.h").toList
        ≠ specOutNameCI ("erfa").toList ("src/SOFA.h").toList
    ∧ outputName ("Erfa").toList ("sofa.h").toList = ("erfa.h").toList
    ∧ specOutNameCI ("Erfa").toList ("sofa.h").toList = ("Erfa.h").toList
    ∧ outputName ("Erfa").toList ("sofa.h").toList
        ≠ specOutNameCI ("Erfa").toList ("sofa.h").toList := by
  refine ⟨by decide, by decide, by decide, by decide, by decide, by decide⟩

/-- C5 (amended) — the output name is the basename of the archive entry
with every occurrence of the lower-case token `'sofa'` replaced
(case-sensitively) by the lower-cased library name; in particular a
basename without a lower-case `'sofa'` (e.g. one containing only `SOFA`)
is kept unchanged. -/
theorem c5_outputname_amended (lib nm : List Char) :
    outputName lib nm = replaceAll sofaLow (pyLower lib) (baseName nm)
    ∧ (containsSub (baseName nm) sofaLow = false → outputName lib nm = baseName nm) := by
  refine ⟨rfl, fun h => ?_⟩
  have hni : ¬ sofaLow <:+: baseName nm := by
    intro hi
    rw [(containsSub_infix_iff _ _).2 hi] at h
    cases h
  exact replaceAll_no_occ _ _ _ hni

/-- Witness for C5 (amended): `SOFA.h` (upper case) is left unchanged. -/
theorem c5_outputname_witness :
    outputName ("erfa").toList ("src2/SOFA.h").toList = baseName ("src2/SOFA.h").toList :=
  (c5_outputname_amended (("erfa").toList) (("src2/SOFA.h").toList)).2 (by decide)

-- ## C7: Header artifacts without the attribution sentinel

theorem foldl_stepH_done {funcPfx lib lic : List Char} {st : HState} (h : st.done = true) :
    ∀ lns : List (List Char), List.foldl (stepH funcPfx lib lic) st lns = st := by
  intro lns
  induction lns with
  | nil => rfl
  | cons ln rest ih =>
    rw [List.foldl_cons]
    have hstep : stepH funcPfx lib lic st ln = st := by simp [stepH, h]
    rw [hstep]
    exact ih

theorem foldl_stepH_nosent (funcPfx lib lic : List Char) :
    ∀ (lns : List (List Char)) (st : HState), st.done = false → st.donewheader = false →
      (∀ ln ∈ lns, pyStartsWith ln sentinelH = false) →
      (List.foldl (stepH funcPfx lib lic) st lns).acc
        = st.acc ++ hdrNoSent funcPfx lib lns := by
  intro lns
  induction lns with
  | nil => intro st _ _ _; simp [hdrNoSent]
  | cons ln rest ih =>
    intro st h1 h2 hs
    have hsln : pyStartsWith ln sentinelH = false := hs ln (List.mem_cons_self ln rest)
    have hrest : ∀ l ∈ rest, pyStartsWith l sentinelH = false :=
      fun l hl => hs l (List.mem_cons_of_mem ln hl)
    rw [List.foldl_cons]
    cases hhash : pyStartsWith ln hashTok with
    | true =>
      have hstep : stepH funcPfx lib lic st ln
          = { st with acc := st.acc ++ [hLineDirective lib ln] } := by
        simp [stepH, h1, hhash]
      rw [hstep, ih _ (by exact h1) (by exact h2) hrest]
      simp [hdrNoSent, hhash, List.append_assoc]
    | false =>
    cases hstar : pyStartsWith ln starstar with
    | true =>
      cases hspc : containsSub ln spacedSofa with
      | true =>
        have hstep : stepH funcPfx lib lic st ln
            = { st with acc := st.acc ++ [replaceAll spacedSofa (spacedLower lib) ln] } := by
          simp [stepH, h1, hhash, hstar, h2, hsln, hspc]
        rw [hstep, ih _ (by exact h1) (by exact h2) hrest]
        simp [hdrNoSent, hhash, hstar, hspc, List.append_assoc]
      | false =>
        have hstep : stepH funcPfx lib lic st ln
            = { st with acc := st.acc ++ [replaceAll sofaUp (pyUpper lib) ln] } := by
          simp [stepH, h1, hhash, hstar, h2, hsln, hspc]
        rw [hstep, ih _ (by exact h1) (by exact h2) hrest]
        simp [hdrNoSent, hhash, hstar, hspc, List.append_assoc]
    | false =>
    cases hdash : pyStartsWith ln dashedRule with
    | true =>
      have hstep : stepH funcPfx lib lic st ln
          = { st with done := true, acc := st.acc ++ [newlineLn] } := by
        simp [stepH, h1, hhash, hstar, hdash]
      rw [hstep, foldl_stepH_done rfl rest]
      simp [hdrNoSent, hhash, hstar, hdash]
    | false =>
      have hstep : stepH funcPfx lib lic st ln
          = { st with acc := st.acc ++ [replaceAll iauTok funcPfx ln] } := by
        simp [stepH, h1, hhash, hstar, hdash]
      rw [hstep, ih _ (by exact h1) (by exact h2) hrest]
      simp [hdrNoSent, hhash, hstar, hdash, List.append_assoc]

/-- C7 (amended) — on a Header artifact without the attribution-sentinel
line the Header Rewriter collapses to the stateless truncating per-line map
`hdrNoSent` (which emits no inline license block, and rewrites a
documentation-comment line by the letter-spaced `'s o f a'` substitution
when that pattern occurs in the line, and otherwise by replacing only the
upper-case project token); consequently the output does not depend on the
rendered license text at all.  The original claim's "only the upper-case
token" for every doc line is refuted by `c7_header_counterexample`. -/
theorem c7_header_nosentinel_amended (funcPfx lib lic lic2 : List Char)
    (lns : List (List Char))
    (h : ∀ ln ∈ lns, pyStartsWith ln sentinelH = false) :
    runH funcPfx lib lic lns = hdrNoSent funcPfx lib lns
    ∧ runH funcPfx lib lic lns = runH funcPfx lib lic2 lns := by
  have e1 := foldl_stepH_nosent funcPfx lib lic lns initH rfl rfl h
  have e2 := foldl_stepH_nosent funcPfx lib lic2 lns initH rfl rfl h
  constructor
  · rw [runH, runHState, e1]
    simp [initH]
  · rw [runH, runH, runHState, runHState, e1, e2]

/-- Witness for C7 (amended) on a sentinel-free header artifact. -/
theorem c7_header_witness :
    runH ("era").toList ("erfa").toList ("**  L1\n").toList
        [("#define SOFA 1\n").toList, ("**  doc SOFA\n").toList,
         ("void iauX(void);\n").toList]
      = hdrNoSent ("era").toList ("erfa").toList
          [("#define SOFA 1\n").toList, ("**  doc SOFA\n").toList,
           ("void iauX(void);\n").toList] :=
  (c7_header_nosentinel_amended (("era").toList) (("erfa").toList)
    (("**  L1\n").toList) (("**  L2\n").toList) _ (by decide)).1

/-- Counterexample to C7 as stated: a documentation-comment line containing
the letter-spaced `'s o f a'` credit (and no sentinel anywhere in the
artifact) is rewritten by the spaced-pattern branch, not by the
upper-case-token-only substitution the claim describes. -/
theorem c7_header_counterexample :
    runH ("era").toList ("erfa").toList ("**  LIC\n").toList [("**  s o f a\n").toList]
      = [("**  e r f a\n").toList]
    ∧ hdrDocRewriteSpec ("erfa").toList (("**  s o f a\n").toList)
        = ("**  s o f a\n").toList
    ∧ runH ("era").toList ("erfa").toList ("**  LIC\n").toList [("**  s o f a\n").toList]
        ≠ [hdrDocRewriteSpec ("erfa").toList (("**  s o f a\n").toList)] := by
  refine ⟨by decide, by decide, by decide⟩

-- ## C10: duplicate derived output names — last writer wins

theorem alookup_upsert {α : Type} (k : List Char) (v : α) :
    ∀ (m : List (List Char × α)) (q : List Char),
      alookup q (upsert k v m) = if q = k then some v else alookup q m := by
  intro m
  induction m with
  | nil =>
    intro q
    by_cases hq : q = k
    · subst hq; simp [upsert, alookup]
    · have hkq : ¬ k = q := fun h => hq h.symm
      simp only [upsert, alookup]
      rw [if_neg hkq, if_neg hq]
  | cons p t ih =>
    intro q
    by_cases hpk : p.1 = k
    · rw [upsert, if_pos hpk]
      by_cases hq : q = k
      · subst hq
        simp [alookup]
      · have hkq : ¬ k = q := fun h => hq h.symm
        have hpq : ¬ p.1 = q := fun h => hq (h.symm.trans hpk)
        simp only [alookup]
        rw [if_neg hkq, if_neg hq, if_neg hpq]
    · rw [upsert, if_neg hpk]
      by_cases hpq : p.1 = q
      · have hq : ¬ q = k := fun h => hpk (hpq.trans h)
        simp only [alookup]
        rw [if_pos hpq, if_pos hpq, if_neg hq]
      · simp only [alookup]
        rw [if_neg hpq, if_neg hpq, ih q]

theorem alookup_writeAll (ms : List (List Char)) (endlic : List Char) :
    ∀ (m : List (List Char × List (List Char))) (fn : List Char),
      alookup fn (writeAll ms endlic m)
        = (alookup fn m).map (fun lns => (emitFile true ms lns endlic).2) := by
  intro m
  induction m with
  | nil => intro fn; rfl
  | cons p t ih =>
    intro fn
    by_cases hp : p.1 = fn
    · simp [writeAll, alookup, hp]
    · simp only [writeAll, List.map_cons] at *
      rw [alookup, if_neg hp, alookup, if_neg hp]
      exact ih fn

theorem buildFileContents_lookup (funcPfx lib lic : List Char) :
    ∀ (entries : List (List Char × List (List Char))) (fn : List Char),
      alookup fn (buildFileContents funcPfx lib lic entries)
        = (((entries.filterMap (routeEntry funcPfx lib lic)).filter
              (fun p => p.1 == fn)).getLast?).map Prod.snd := by
  intro entries
  induction entries using List.reverseRecOn with
  | nil => intro fn; simp [buildFileContents, alookup]
  | append_singleton es e ih =>
    intro fn
    have hb : buildFileContents funcPfx lib lic (es ++ [e])
        = (match routeEntry funcPfx lib lic e with
           | none => buildFileContents funcPfx lib lic es
           | some kv => upsert kv.1 kv.2 (buildFileContents funcPfx lib lic es)) := by
      rw [buildFileContents, List.foldl_append, List.foldl_cons, List.foldl_nil]
      rfl
    rw [List.filterMap_append, List.filter_append]
    cases hr : routeEntry funcPfx lib lic e with
    | none =>
      rw [hb, hr]
      have hfm : List.filterMap (routeEntry funcPfx lib lic) [e] = [] := by
        simp [List.filterMap, hr]
      rw [hfm]
      simp only [List.filter_nil, List.append_nil]
      exact ih fn
    | some kv =>
      rw [hb, hr]
      have hfm : List.filterMap (routeEntry funcPfx lib lic) [e] = [kv] := by
        simp [List.filterMap, hr]
      rw [hfm]
      cases hkfn : (kv.1 == fn) with
      | true =>
        have hflt : List.filter (fun p => p.1 == fn) [kv] = [kv] := by
          simp [List.filter, hkfn]
        rw [hflt, List.getLast?_concat, alookup_upsert,
          if_pos ((by simpa using hkfn : kv.1 = fn)).symm]
        rfl
      | false =>
        have hflt : List.filter (fun p => p.1 == fn) [kv] = [] := by
          simp [List.filter, hkfn]
        have hne : fn ≠ kv.1 := by
          intro h
          rw [h] at hkfn
          simp at hkfn
        rw [hflt, List.append_nil, alookup_upsert, if_neg hne]
        exact ih fn

/-- C10 — when several archive entries derive the same output filename, the
per-run file map keeps exactly the rewritten lines of the last such entry
(Python dict assignment overwrites), and the written text for that filename
is produced from that last entry's lines only: earlier duplicates are never
audited, macro-prefixed, or written. -/
theorem c10_duplicate_lastwins (funcPfx lib lic : List Char)
    (ms : List (List Char)) (endlic : List Char)
    (entries : List (List Char × List (List Char))) (fn : List Char) :
    alookup fn (buildFileContents funcPfx lib lic entries)
      = (((entries.filterMap (routeEntry funcPfx lib lic)).filter
            (fun p => p.1 == fn)).getLast?).map Prod.snd
    ∧ alookup fn (writeAll ms endlic (buildFileContents funcPfx lib lic entries))
      = (((entries.filterMap (routeEntry funcPfx lib lic)).filter
            (fun p => p.1 == fn)).getLast?).map
          (fun p => (emitFile true ms p.2 endlic).2) := by
  refine ⟨buildFileContents_lookup funcPfx lib lic entries fn, ?_⟩
  rw [alookup_writeAll, buildFileContents_lookup funcPfx lib lic entries fn]
  cases ((entries.filterMap (routeEntry funcPfx lib lic)).filter
      (fun p => p.1 == fn)).getLast? with
  | none => rfl
  | some kv => rfl

-- ## C1: the macro prefixing pass, lemmas about `\b`-substitution

theorem lastOr_eq_getLast (p : Char) (u : List Char) :
    lastOr u (some p) = (p :: u).getLast? := by
  cases u with
  | nil => simp [lastOr]
  | cons d u' => rw [List.getLast?_cons_cons]; rfl

theorem wwAux_skip (pat rep : List Char) :
    ∀ (u s : List Char) (prev : Option Char),
      wwAux pat rep (u ++ s) prev u.length = wwAux pat rep s (lastOr u prev) 0 := by
  intro u
  induction u with
  | nil => intro s prev; rfl
  | cons c u' ih =>
    intro s prev
    have he : lastOr u' (some c) = lastOr (c :: u') prev := by
      rw [lastOr_eq_getLast]; rfl
    calc wwAux pat rep ((c :: u') ++ s) prev ((c :: u').length)
        = wwAux pat rep (u' ++ s) (some c) u'.length := rfl
      _ = wwAux pat rep s (lastOr u' (some c)) 0 := ih s (some c)
      _ = wwAux pat rep s (lastOr (c :: u') prev) 0 := by rw [he]

theorem optIsWord_head (pat : List Char) (hne : pat ≠ []) (hw : pat.all isWordChar = true) :
    optIsWord pat.head? = true := by
  cases pat with
  | nil => exact absurd rfl hne
  | cons p pt =>
    have hp : isWordChar p = true := (List.all_eq_true.1 hw) p (List.mem_cons_self _ _)
    simpa [optIsWord] using hp

theorem optIsWord_getLast (pat : List Char) (hne : pat ≠ []) (hw : pat.all isWordChar = true) :
    optIsWord pat.getLast? = true := by
  rw [List.getLast?_eq_getLast pat hne]
  exact (List.all_eq_true.1 hw) _ (List.getLast_mem hne)

theorem wwAux_fire (pat rep t : List Char) (prev : Option Char)
    (hne : pat ≠ [])
    (hb1 : (optIsWord prev != optIsWord pat.head?) = true)
    (hb2 : (optIsWord pat.getLast? != optIsWord t.head?) = true) :
    wwAux pat rep (pat ++ t) prev 0 = rep ++ wwAux pat rep t pat.getLast? 0 := by
  cases pat with
  | nil => exact absurd rfl hne
  | cons p pt =>
    have hpre : (p :: pt).isPrefixOf (p :: (pt ++ t)) = true := by
      rw [List.isPrefixOf_iff_prefix, ← List.cons_append]
      exact List.prefix_append _ _
    have hdrop : ((p :: (pt ++ t)).drop (p :: pt).length) = t := by
      rw [← List.cons_append, List.drop_left]
    have hhit : wwHit (p :: pt) prev (p :: (pt ++ t)) = true := by
      have hb1' : ¬ optIsWord prev = optIsWord (some p) := by simpa using hb1
      have hb2' : ¬ optIsWord ((p :: pt).getLast?) = optIsWord t.head? := by simpa using hb2
      simp only [wwHit, hdrop]
      simp [hpre, hb1', hb2']
    show wwAux (p :: pt) rep (p :: (pt ++ t)) prev 0 = _
    simp only [wwAux]
    rw [if_pos hhit]
    have hl : (p :: pt).length - 1 = pt.length := rfl
    rw [hl, wwAux_skip (p :: pt) rep pt t (some p), lastOr_eq_getLast]

theorem wwAux_miss (pat rep : List Char) (c : Char) (cs : List Char) (prev : Option Char)
    (h : wwHit pat prev (c :: cs) = false) :
    wwAux pat rep (c :: cs) prev 0 = c :: wwAux pat rep cs (some c) 0 := by
  simp only [wwAux]
  rw [if_neg]
  simp [h]

theorem wwHit_false_of_prevWord (pat : List Char) (prev : Option Char) (s : List Char)
    (hne : pat ≠ []) (hw : pat.all isWordChar = true) (hprev : optIsWord prev = true) :
    wwHit pat prev s = false := by
  have hh := optIsWord_head pat hne hw
  simp [wwHit, hprev, hh]

theorem wwHit_false_of_headNonWord (pat : List Char) (prev : Option Char) (c : Char)
    (cs : List Char) (hne : pat ≠ []) (hw : pat.all isWordChar = true)
    (hc : isWordChar c = false) : wwHit pat prev (c :: cs) = false := by
  cases pat with
  | nil => exact absurd rfl hne
  | cons p pt =>
    have hp : isWordChar p = true := (List.all_eq_true.1 hw) p (List.mem_cons_self _ _)
    have hpre : (p :: pt).isPrefixOf (c :: cs) = false := by
      cases hb : (p :: pt).isPrefixOf (c :: cs) with
      | false => rfl
      | true =>
        have hpc : p = c := (List.cons_prefix_cons.1 (List.isPrefixOf_iff_prefix.1 hb)).1
        rw [hpc] at hp
        rw [hp] at hc
        cases hc
    simp [wwHit, hpre]

theorem head?_dropWhile_not (p : Char → Bool) :
    ∀ (l : List Char) (a : Char), (l.dropWhile p).head? = some a → p a = false := by
  intro l
  induction l with
  | nil => intro a h; cases h
  | cons c cs ih =>
    intro a h
    by_cases hc : p c = true
    · rw [List.dropWhile_cons_of_pos hc] at h
      exact ih a h
    · rw [List.dropWhile_cons_of_neg hc] at h
      have hca : c = a := by simpa using h
      cases hval : p c with
      | false => rw [← hca]; exact hval
      | true => exact absurd hval hc

theorem wwAux_copyRun (pat rep : List Char) (hne : pat ≠ []) (hw : pat.all isWordChar = true) :
    ∀ (r s : List Char) (prev : Option Char), r.all isWordChar = true →
      optIsWord prev = true →
      wwAux pat rep (r ++ s) prev 0 = r ++ wwAux pat rep s (lastOr r prev) 0
        ∧ optIsWord (lastOr r prev) = true := by
  intro r
  induction r with
  | nil => intro s prev _ hp; exact ⟨rfl, hp⟩
  | cons c r' ih =>
    intro s prev hall hp
    have hc : isWordChar c = true := (List.all_eq_true.1 hall) c (List.mem_cons_self _ _)
    have hall' : r'.all isWordChar = true := by
      rw [List.all_eq_true]
      intro x hx
      exact (List.all_eq_true.1 hall) x (List.mem_cons_of_mem _ hx)
    have hmiss : wwHit pat prev (c :: (r' ++ s)) = false :=
      wwHit_false_of_prevWord pat prev _ hne hw hp
    obtain ⟨ih1, ih2⟩ := ih s (some c) hall' (by simp [optIsWord, hc])
    have he : lastOr r' (some c) = lastOr (c :: r') prev := by
      rw [lastOr_eq_getLast]; rfl
    constructor
    · show wwAux pat rep (c :: (r' ++ s)) prev 0 = _
      rw [wwAux_miss pat rep c (r' ++ s) prev hmiss, ih1, he]
      rfl
    · rw [← he]; exact ih2

theorem specAux_run (m rep : List Char) :
    ∀ (r s buf : List Char), r.all isWordChar = true →
      specAux m rep buf (r ++ s) = specAux m rep (buf ++ r) s := by
  intro r
  induction r with
  | nil => intro s buf _; simp
  | cons c r' ih =>
    intro s buf hall
    have hc : isWordChar c = true := (List.all_eq_true.1 hall) c (List.mem_cons_self _ _)
    have hall' : r'.all isWordChar = true := by
      rw [List.all_eq_true]
      intro x hx
      exact (List.all_eq_true.1 hall) x (List.mem_cons_of_mem _ hx)
    show specAux m rep buf (c :: (r' ++ s)) = _
    simp only [specAux]
    rw [if_pos hc, ih s (buf ++ [c]) hall']
    simp [List.append_assoc]

theorem flushRun_nil (pat rep : List Char) (hne : pat ≠ []) :
    flushRun pat rep [] = [] := by
  have hb : (([] : List Char) == pat) = false :=
    beq_eq_false_iff_ne.2 (fun h => hne h.symm)
  simp [flushRun, hb]

theorem wwAux_eq_specAux (pat rep : List Char) (hne : pat ≠ [])
    (hw : pat.all isWordChar = true) :
    ∀ (n : Nat) (s : List Char) (prev : Option Char), s.length ≤ n →
      optIsWord prev = false →
      wwAux pat rep s prev 0 = specAux pat rep [] s := by
  intro n
  induction n with
  | zero =>
    intro s prev hlen _
    have hs : s = [] := List.length_eq_zero.1 (Nat.le_zero.1 hlen)
    subst hs
    show ([] : List Char) = specAux pat rep [] []
    simp [specAux, flushRun_nil pat rep hne]
  | succ n ih =>
    intro s prev hlen hprev
    cases s with
    | nil =>
      show ([] : List Char) = specAux pat rep [] []
      simp [specAux, flushRun_nil pat rep hne]
    | cons c cs =>
      have hlen' : cs.length ≤ n := by
        simp only [List.length_cons] at hlen
        omega
      cases hcw : isWordChar c with
      | false =>
        have hmiss := wwHit_false_of_headNonWord pat prev c cs hne hw hcw
        rw [wwAux_miss pat rep c cs prev hmiss,
          ih cs (some c) hlen' (by simp [optIsWord, hcw])]
        simp only [specAux]
        rw [if_neg (by simp [hcw]), flushRun_nil pat rep hne]
        rfl
      | true =>
        obtain ⟨r, rest, hsplit, hrall, hrC, hrestHead⟩ :
            ∃ r rest, r ++ rest = c :: cs ∧ r.all isWordChar = true
              ∧ r = c :: cs.takeWhile isWordChar
              ∧ ∀ a, rest.head? = some a → isWordChar a = false := by
          refine ⟨(c :: cs).takeWhile isWordChar, (c :: cs).dropWhile isWordChar,
            List.takeWhile_append_dropWhile _ _, ?_,
            List.takeWhile_cons_of_pos hcw,
            fun a ha => head?_dropWhile_not isWordChar (c :: cs) a ha⟩
          rw [List.all_eq_true]
          intro x hx
          exact List.mem_takeWhile_imp hx
        have hspec : specAux pat rep [] (c :: cs) = specAux pat rep r rest := by
          rw [← hsplit, specAux_run pat rep r rest [] hrall]
          simp
        by_cases hrm : r = pat
        · -- the run is exactly the macro: the regex fires here
          have hb1 : (optIsWord prev != optIsWord pat.head?) = true := by
            rw [hprev, optIsWord_head pat hne hw]
            rfl
          have hb2 : (optIsWord pat.getLast? != optIsWord rest.head?) = true := by
            rw [optIsWord_getLast pat hne hw]
            cases hrh : rest.head? with
            | none => rfl
            | some a =>
              have := hrestHead a hrh
              simp [optIsWord, this]
          have hs2 : c :: cs = pat ++ rest := by rw [← hsplit, hrm]
          rw [hspec, hs2, wwAux_fire pat rep rest prev hne hb1 hb2, hrm]
          rcases rest with _ | ⟨d, ds⟩
          · show rep ++ ([] : List Char) = specAux pat rep pat []
            simp only [specAux, flushRun]
            simp
          · have hd : isWordChar d = false := hrestHead d rfl
            have hmiss2 : wwHit pat pat.getLast? (d :: ds) = false :=
              wwHit_false_of_prevWord pat _ _ hne hw (optIsWord_getLast pat hne hw)
            rw [wwAux_miss pat rep d ds _ hmiss2]
            have hlen3 : ds.length ≤ n := by
              have hceq := congrArg List.length hs2
              have hp1 : 0 < pat.length := List.length_pos.2 hne
              simp only [List.length_cons, List.length_append] at hceq hlen
              omega
            rw [ih ds (some d) hlen3 (by simp [optIsWord, hd])]
            simp only [specAux]
            rw [if_neg (by simp [hd])]
            simp [flushRun]
        · -- the run differs from the macro: everything is copied
          have hnohit : wwHit pat prev (c :: cs) = false := by
            cases hpf : pat.isPrefixOf (c :: cs) with
            | false => simp [wwHit, hpf]
            | true =>
              have hpfx : pat <+: (c :: cs) := List.isPrefixOf_iff_prefix.1 hpf
              have hrpfx : r <+: (c :: cs) := ⟨rest, hsplit⟩
              rcases List.prefix_or_prefix_of_prefix hpfx hrpfx with hpr | hrp
              · -- pat is a proper prefix of the run: right boundary fails
                obtain ⟨u, hu⟩ := hpr
                have hune : u ≠ [] := by
                  intro h
                  rw [h, List.append_nil] at hu
                  exact hrm hu.symm
                have hdrop : (c :: cs).drop pat.length = u ++ rest := by
                  rw [← hsplit, ← hu, List.append_assoc, List.drop_left]
                rcases u with _ | ⟨u0, u'⟩
                · exact absurd rfl hune
                · have hu0 : isWordChar u0 = true := by
                    have hmem : u0 ∈ r := by
                      rw [← hu]
                      exact List.mem_append.2 (Or.inr (List.mem_cons_self _ _))
                    exact (List.all_eq_true.1 hrall) u0 hmem
                  have hb2f : (optIsWord pat.getLast?
                      != optIsWord ((c :: cs).drop pat.length).head?) = false := by
                    rw [hdrop, optIsWord_getLast pat hne hw]
                    simp [optIsWord, hu0]
                  unfold wwHit
                  rw [hb2f]
                  simp
              · -- the run is a proper prefix of pat: pat would cross into
                -- the non-word tail, impossible
                obtain ⟨v, hv⟩ := hrp
                have hvne : v ≠ [] := by
                  intro h
                  rw [h, List.append_nil] at hv
                  exact hrm hv
                have hvpre : v <+: rest := by
                  have hx : r ++ v <+: r ++ rest := by
                    rw [hv, hsplit]
                    exact hpfx
                  exact (List.prefix_append_right_inj r).1 hx
                rcases v with _ | ⟨v0, v'⟩
                · exact absurd rfl hvne
                · have hv0w : isWordChar v0 = true := by
                    have hmem : v0 ∈ pat := by
                      rw [← hv]
                      exact List.mem_append.2 (Or.inr (List.mem_cons_self _ _))
                    exact (List.all_eq_true.1 hw) v0 hmem
                  obtain ⟨t2, ht2⟩ := hvpre
                  have hrh : rest.head? = some v0 := by rw [← ht2]; rfl
                  have habs := hrestHead v0 hrh
                  rw [hv0w] at habs
                  cases habs
          have hcs : cs.takeWhile isWordChar ++ rest = cs := by
            have h := hsplit
            rw [hrC, List.cons_append] at h
            exact (List.cons.inj h).2
          have hr'all : (cs.takeWhile isWordChar).all isWordChar = true := by
            rw [List.all_eq_true]
            intro x hx
            exact List.mem_takeWhile_imp hx
          obtain ⟨hcopy, hplast⟩ := wwAux_copyRun pat rep hne hw
            (cs.takeWhile isWordChar) rest (some c) hr'all (by simp [optIsWord, hcw])
          rw [hcs] at hcopy
          have hrmb : ((c :: cs.takeWhile isWordChar : List Char) == pat) = false := by
            apply beq_eq_false_iff_ne.2
            rw [← hrC]
            exact hrm
          rw [hspec, hrC, wwAux_miss pat rep c cs prev hnohit, hcopy]
          rcases rest with _ | ⟨d, ds⟩
          · simp only [wwAux, specAux, flushRun, hrmb]
            simp
          · have hd : isWordChar d = false := hrestHead d rfl
            have hmiss2 : wwHit pat (lastOr (cs.takeWhile isWordChar) (some c))
                (d :: ds) = false :=
              wwHit_false_of_prevWord pat _ _ hne hw hplast
            rw [wwAux_miss pat rep d ds _ hmiss2]
            have hlen3 : ds.length ≤ n := by
              have hceq := congrArg List.length hcs
              simp only [List.length_cons, List.length_append] at hceq
              omega
            rw [ih ds (some d) hlen3 (by simp [optIsWord, hd])]
            simp only [specAux]
            rw [if_neg (by simp [hd])]
            simp only [flushRun, hrmb]
            simp

theorem wwSub_eq_substSpecWW (pat rep s : List Char) (hne : pat ≠ [])
    (hw : pat.all isWordChar = true) :
    wwSub pat rep s = substSpecWW pat rep s :=
  wwAux_eq_specAux pat rep hne hw s.length s none le_rfl rfl

/-- C1 (amended) — the Global Macro Prefixer replaces, in each assembled
text, exactly the whole-word occurrences (maximal word-character runs) of
every registered macro name with the fixed string `'ERFA_'` followed by the
macro name upper-cased — regardless of the configured library name — and
leaves occurrences embedded in longer identifiers unchanged: the regex pass
coincides with the maximal-run substitution spec `substSpecWW`, macro by
macro.  The claim's "upper-cased library name" replacement is refuted by
`c1_macro_rename_counterexample`. -/
theorem c1_macro_rename_amended (ms : List (List Char)) (s : List Char)
    (h : ∀ m ∈ ms, m ≠ [] ∧ m.all isWordChar = true) :
    applyMacroSubs ms s = ms.foldl (fun t m => substSpecWW m (erfaRep m) t) s := by
  induction ms generalizing s with
  | nil => rfl
  | cons m ms' ih =>
    have hm := h m (List.mem_cons_self _ _)
    have heq : wwSub m (erfaRep m) s = substSpecWW m (erfaRep m) s :=
      wwSub_eq_substSpecWW m (erfaRep m) s hm.1 hm.2
    show List.foldl (fun t m => wwSub m (erfaRep m) t) (wwSub m (erfaRep m) s) ms'
        = List.foldl (fun t m => substSpecWW m (erfaRep m) t) (substSpecWW m (erfaRep m) s) ms'
    rw [heq]
    exact ih (substSpecWW m (erfaRep m) s) (fun x hx => h x (List.mem_cons_of_mem _ hx))

/-- Witness for C1 (amended) on the registry `{"DPI"}` and a text holding
both a standalone `DPI` and an embedded `DPIX`. -/
theorem c1_macro_rename_witness :
    applyMacroSubs [("DPI").toList] (("x = DPI + DPIX;\n").toList)
      = [("DPI").toList].foldl (fun t m => substSpecWW m (erfaRep m) t)
          (("x = DPI + DPIX;\n").toList) :=
  c1_macro_rename_amended _ _ (by decide)

/-- Counterexample to C1 as stated: the replacement text is the hard-coded
`'ERFA_'` prefix, not the upper-cased configured library name — for library
`'foo'` the claim demands `FOO_DPI` but the code produces `ERFA_DPI` (for
every library name, since `prefix_macro` never reads it). -/
theorem c1_macro_rename_counterexample :
    applyMacroSubs [("DPI").toList] (("2*DPI;\n").toList) = ("2*ERFA_DPI;\n").toList
    ∧ substSpecWW (("DPI").toList) (specMacroRename (("foo").toList) (("DPI").toList))
        (("2*DPI;\n").toList) = ("2*FOO_DPI;\n").toList
    ∧ applyMacroSubs [("DPI").toList] (("2*DPI;\n").toList)
        ≠ substSpecWW (("DPI").toList) (specMacroRename (("foo").toList) (("DPI").toList))
            (("2*DPI;\n").toList) := by
  refine ⟨by decide, by decide, by decide⟩
